import Mathlib

/-!
Verification development for `find_unused.py`, a script that scans a source
tree for exported TypeScript symbols and flags exports that appear unused.

The embedding works over `List Char` for strings, `SrcFile` for files of the
scanned tree, and `SearchResult` for the outcome of the external `grep`
subprocess invocation.  Pure Python functions (`get_exports`, `is_used`,
the `main` loop) become Lean functions; the regular-expression matching in
`get_exports` is embedded as explicit scanners that mirror Python
`re.finditer` semantics (leftmost, non-overlapping matches) for the three
concrete patterns of the script.
-/

namespace FindUnused

/-- Convert a string literal to the `List Char` representation used throughout. -/
def s2l (s : String) : List Char := s.data

/-- Word characters of the character class `[a-zA-Z0-9_]` (also the characters
`\b` word boundaries are defined from, both in Python `re` and in grep). -/
def isWordChar (c : Char) : Bool := c.isAlpha || c.isDigit || c = '_'

/-- ASCII whitespace as matched by Python's `\s`. -/
def isPySpace (c : Char) : Bool :=
  c = ' ' || c = '\t' || c = '\n' || c = '\r' || c = '\x0b' || c = '\x0c'

/-- Match a literal prefix, returning the rest of the input after it. -/
def dropLit : List Char → List Char → Option (List Char)
  | [], s => some s
  | _ :: _, [] => none
  | c :: cs, x :: xs => if c = x then dropLit cs xs else none

/-- Consume `\s+` (one or more whitespace characters, maximal munch; since no
whitespace character can start any continuation used in the patterns below,
maximal munch agrees with the backtracking regex). -/
def dropWs1 : List Char → Option (List Char)
  | [] => none
  | c :: rest => if isPySpace c then some (rest.dropWhile isPySpace) else none

/-- Consume `([a-zA-Z0-9_]+)` (a maximal nonempty run of word characters),
returning the capture and the rest. -/
def takeWord : List Char → Option (List Char × List Char)
  | [] => none
  | c :: rest =>
    if isWordChar c then
      some (c :: rest.takeWhile isWordChar, rest.dropWhile isWordChar)
    else none

/-- Alternatives of the keyword group `(?:const|function|class|type|interface|enum)`.
No alternative is a prefix of another, so first-match commitment agrees with
regex alternation. -/
def kwAlts : List (List Char) :=
  [s2l "const", s2l "function", s2l "class", s2l "type", s2l "interface", s2l "enum"]

/-- Try each alternative in order as a literal prefix. -/
def matchAlts : List (List Char) → List Char → Option (List Char)
  | [], _ => none
  | a :: rest, s =>
    match dropLit a s with
    | some r => some r
    | none => matchAlts rest s

/-- Attempt pattern 1,
`export\s+(?:const|function|class|type|interface|enum)\s+([a-zA-Z0-9_]+)`,
at the head of `s`; on success return the capture and the rest of the input
after the whole match (the match ends at the capture). -/
def matchP1At (s : List Char) : Option (List Char × List Char) :=
  (dropLit (s2l "export") s).bind fun s1 =>
  (dropWs1 s1).bind fun s2 =>
  (matchAlts kwAlts s2).bind fun s3 =>
  (dropWs1 s3).bind fun s4 =>
  takeWord s4

/-- Attempt pattern 2, `export\s+default\s+([a-zA-Z0-9_]+)`, at the head of `s`. -/
def matchP2At (s : List Char) : Option (List Char × List Char) :=
  (dropLit (s2l "export") s).bind fun s1 =>
  (dropWs1 s1).bind fun s2 =>
  (dropLit (s2l "default") s2).bind fun s3 =>
  (dropWs1 s3).bind fun s4 =>
  takeWord s4

/-- Skip to just after the first closing brace, failing if there is none.
This is the lazy `[^}]*?}` tail of pattern 3. -/
def findCloseBrace : List Char → Option (List Char)
  | [] => none
  | c :: rest => if c = '\x7d' then some rest else findCloseBrace rest

/-- Scan the region after `export\s+{` for the lazy `[^}]*?\b([a-zA-Z0-9_]+)\b`:
the first word-character run reachable without crossing a closing brace is the
capture (its predecessor is necessarily a non-word character, so the leading
word boundary holds); afterwards the match must still reach a closing brace.
Returns the capture and the rest of the input after that closing brace. -/
def scanBrace : List Char → Option (List Char × List Char)
  | [] => none
  | c :: rest =>
    if c = '\x7d' then none
    else if isWordChar c then
      match findCloseBrace (rest.dropWhile isWordChar) with
      | some r => some (c :: rest.takeWhile isWordChar, r)
      | none => none
    else scanBrace rest

/-- Attempt pattern 3, `export\s+{[^}]*?\b([a-zA-Z0-9_]+)\b[^}]*?}`, at the
head of `s`.  On success the returned rest is the input after the closing
brace, where `re.finditer` resumes scanning. -/
def matchP3At (s : List Char) : Option (List Char × List Char) :=
  (dropLit (s2l "export") s).bind fun s1 =>
  (dropWs1 s1).bind fun s2 =>
  (dropLit ['\x7b'] s2).bind fun s3 =>
  scanBrace s3

/-- Fuel-driven scanner mirroring `re.finditer`: try the pattern at every
position from left to right; on a match, emit the capture and resume after
the match.  Every successful match of the three patterns above consumes at
least one character, so fuel equal to the input length never truncates. -/
def finditerFuel (matchAt : List Char → Option (List Char × List Char)) :
    Nat → List Char → List (List Char)
  | 0, _ => []
  | _, [] => []
  | Nat.succ fuel, c :: rest =>
    match matchAt (c :: rest) with
    | some (w, r) => w :: finditerFuel matchAt fuel r
    | none => finditerFuel matchAt fuel rest

/-- All captures of a pattern over a content string, in `re.finditer` order. -/
def finditer (matchAt : List Char → Option (List Char × List Char))
    (s : List Char) : List (List Char) :=
  finditerFuel matchAt s.length s

/-- Captures contributed by one file's content: the three patterns are applied
independently, in the order they appear in the `patterns` list of the script. -/
def fileCaptures (content : List Char) : List (List Char) :=
  finditer matchP1At content ++ finditer matchP2At content ++ finditer matchP3At content

/-- One file of the scanned tree: the directory part that `os.walk` reports
(`root`), the file name (`file`), and the decoded textual content.  The path
used in reports and in search results is `dir ++ "/" ++ base`, mirroring
`os.path.join(root, file)`. -/
structure SrcFile where
  dir : List Char
  base : List Char
  content : List Char
  deriving DecidableEq

/-- The joined path of a file, `os.path.join(root, file)`. -/
def SrcFile.fpath (f : SrcFile) : List Char := f.dir ++ '/' :: f.base

/-- Eligibility filter of `get_exports`:
`file.endswith(('.ts', '.tsx')) and not file.endswith('.test.ts') and not file.endswith('.test.tsx')`,
applied to the file name. -/
def eligible (base : List Char) : Bool :=
  ((s2l ".ts").isSuffixOf base || (s2l ".tsx").isSuffixOf base)
    && !((s2l ".test.ts").isSuffixOf base)
    && !((s2l ".test.tsx").isSuffixOf base)

/-- An ExportRecord of the spec's data model: (file_path, symbol_name). -/
abbrev ExportRecord := List Char × List Char

/-- `get_exports`: walk the tree (the list order is the `os.walk` traversal
order), and for each eligible file collect all pattern captures as
`(path, name)` records, keeping only truthy (nonempty) names as the script's
`if name:` does. -/
def get_exports : List SrcFile → List ExportRecord
  | [] => []
  | f :: rest =>
    (if eligible f.base then
      ((fileCaptures f.content).filter (fun n => !n.isEmpty)).map (fun n => (f.fpath, n))
    else []) ++ get_exports rest

/-- Python `str.split('\n')`: `"".split('\n') = ['']`, and each newline
separates fields. -/
def splitNl : List Char → List (List Char)
  | [] => [[]]
  | c :: rest =>
    if c = '\n' then [] :: splitNl rest
    else
      match splitNl rest with
      | t :: ts => (c :: t) :: ts
      | [] => [[c]]

/-- Python `str.strip()`: remove whitespace from both ends. -/
def stripWs (s : List Char) : List Char :=
  ((s.dropWhile isPySpace).reverse.dropWhile isPySpace).reverse

/-- The test-file filter of `is_used`:
`f.endswith(('.test.ts', '.test.tsx'))`, applied to a path from the search
output. -/
def testPath (p : List Char) : Bool :=
  (s2l ".test.ts").isSuffixOf p || (s2l ".test.tsx").isSuffixOf p

/-- Outcome of the external search invocation
`subprocess.check_output(['grep', '-r', '-l', '\\b'+name+'\\b', directory])`:
either the decoded standard output on exit status 0, or
`subprocess.CalledProcessError` on a non-zero exit status (grep exits 1 when
no line matches and 2 on errors), or a subprocess failure that raises any
other exception (e.g. `FileNotFoundError` when the binary is missing). -/
inductive SearchResult where
  | ok (output : List Char)
  | calledProcessError
  | otherFailure
  deriving DecidableEq

/-- `is_used(name, definition_file, directory)`.  The subprocess call is
modelled by `res`; the `directory` argument only determines `res`, via the
oracle at the call site.  `os.path.abspath` equality is modelled as path
equality, since the paths compared on the real run are produced by the same
`os.path.join` construction from the same working directory.  The value is
`Except Unit Bool`: `Except.error ()` models an exception propagating out of
`is_used`, which only catches `subprocess.CalledProcessError`. -/
def is_used (name definition_file : List Char) (res : SearchResult) :
    Except Unit Bool :=
  match name, res with
  | _, SearchResult.ok output =>
    let files := splitNl (stripWs output)
    let usages := files.filter (fun f => f != definition_file)
    let usages2 := usages.filter (fun f => !testPath f)
    Except.ok (decide (0 < usages2.length))
  | _, SearchResult.calledProcessError => Except.ok false
  | _, SearchResult.otherFailure => Except.error ()

/-- Whole-word containment, the semantics of `grep '\bname\b'` for a name
consisting of word characters: some occurrence of `w` is preceded by no
character or a non-word character, and followed by no character or a non-word
character. -/
def boundaryBefore : Option Char → Bool
  | none => true
  | some c => !isWordChar c

/-- Word-boundary condition after a match: end of input or a non-word character. -/
def boundaryAfter : List Char → Bool
  | [] => true
  | c :: _ => !isWordChar c

/-- Scan for a whole-word occurrence of `w`, tracking the previous character. -/
def hwAux (w : List Char) : Option Char → List Char → Bool
  | _, [] => false
  | prev, c :: rest =>
    (boundaryBefore prev &&
      (match dropLit w (c :: rest) with
       | some r => boundaryAfter r
       | none => false)) || hwAux w (some c) rest

/-- `content` contains `w` as a whole word. -/
def hasWholeWord (w content : List Char) : Bool := hwAux w none content

/-- The files of the tree that the whole-word search matches, as paths, in
tree order.  `grep -r -l` prints exactly the files containing a match. -/
def grepFiles (w : List Char) (fs : List SrcFile) : List (List Char) :=
  (fs.filter (fun f => hasWholeWord w f.content)).map SrcFile.fpath

/-- Newline-join of the matched paths (`grep -l` output without the final
newline). -/
def joinNl : List (List Char) → List Char
  | [] => []
  | [p] => p
  | p :: ps => p ++ '\n' :: joinNl ps

/-- The grep subprocess outcome on a tree: exit status 0 with one matched
path per line (and a trailing newline) when there is at least one match,
and exit status 1 (`CalledProcessError`) when there is none. -/
def grepResult (w : List Char) (fs : List SrcFile) : SearchResult :=
  match grepFiles w fs with
  | [] => SearchResult.calledProcessError
  | ms => SearchResult.ok (joinNl ms ++ ['\n'])

/-- The search oracle of a real run over the tree `fs`. -/
def grepOracle (fs : List SrcFile) : List Char → List Char → SearchResult :=
  fun n _ => grepResult n fs

/-- The Boolean the script's `is_used` computes on a real run (the grep
oracle never raises an exception other than `CalledProcessError`, so the
`Except.error` branch is unreachable; this is proved below). -/
def usedB (n d : List Char) (fs : List SrcFile) : Bool :=
  match is_used n d (grepResult n fs) with
  | Except.ok b => b
  | Except.error _ => false

/-- The keyword guard set of `main`:
`name in ('default', 'interface', 'type', 'const', 'function', 'class')`. -/
def kwNames : List (List Char) :=
  [s2l "default", s2l "interface", s2l "type", s2l "const", s2l "function", s2l "class"]

/-- The checking loop of `main`: skip keyword names, call `is_used`, and
accumulate the unused records in traversal order.  An exception raised by
`is_used` aborts the run (`Except.error`). -/
def runChecks (oracle : List Char → List Char → SearchResult) :
    List ExportRecord → Except Unit (List ExportRecord)
  | [] => Except.ok []
  | (p, n) :: rest =>
    if n ∈ kwNames then runChecks oracle rest
    else
      match is_used n p (oracle n p) with
      | Except.error e => Except.error e
      | Except.ok b =>
        match runChecks oracle rest with
        | Except.error e => Except.error e
        | Except.ok l => Except.ok (if b then l else (p, n) :: l)

/-- `main` on a tree with an arbitrary search oracle: collect the exports,
then run the checking loop; the result is the `unused` list of the script
(or an uncaught exception). -/
def mainUnused (fs : List SrcFile)
    (oracle : List Char → List Char → SearchResult) :
    Except Unit (List ExportRecord) :=
  runChecks oracle (get_exports fs)

/-- The `unused` list of a real (grep-oracle) run. -/
def mainReport (fs : List SrcFile) : List ExportRecord :=
  match mainUnused fs (grepOracle fs) with
  | Except.ok l => l
  | Except.error _ => []

/-- The summary block printed at the end of `main`: the message
`"No unused exports found."` when the unused list is empty, otherwise one
`f"{path}: {name}"` line per unused record, in list order. -/
def summaryLines (unused : List ExportRecord) : List (List Char) :=
  if unused.isEmpty then [s2l "No unused exports found."]
  else unused.map (fun r => r.1 ++ s2l ": " ++ r.2)

/-- Well-formedness of the tree's paths for the grep output round-trip: no
path contains a whitespace character (in particular no newline, so the
newline-separated `grep -l` output parses back into the path list). -/
def wfPaths (fs : List SrcFile) : Prop :=
  ∀ f ∈ fs, ∀ ch ∈ f.fpath, isPySpace ch = false

instance : DecidablePred wfPaths := fun fs => by
  unfold wfPaths; infer_instance

/-- The summary list characterized as a filter of the collected records (the
spec's description of the report); proved below to agree with the checking
loop of `main`. -/
def unusedOf (fs : List SrcFile) : List ExportRecord :=
  (get_exports fs).filter
    (fun r => !(decide (r.2 ∈ kwNames)) && !(usedB r.2 r.1 fs))

/-- What a successful capture means textually: `w` is a nonempty run of word
characters occurring in `s` right after a non-word character, and followed by
a word boundary. -/
def SoundCapture (s w : List Char) : Prop :=
  w ≠ [] ∧ w.all isWordChar = true ∧
    ∃ u c v, s = u ++ c :: (w ++ v) ∧ isWordChar c = false ∧ boundaryAfter v = true

/-- The symbol name `Foo` of the spec's testable properties. -/
def fooName : List Char := s2l "Foo"

/-- A one-file tree whose only file exports `Foo` and contains no other
occurrence of it. -/
def exFs : List SrcFile := [⟨s2l "src", s2l "a.ts", s2l "export const Foo = 1;"⟩]

/-- A one-file tree whose only file CONTAINS the text `export const Foo = 1;`,
preceded by the text `export const `. -/
def advFs : List SrcFile :=
  [⟨s2l "src", s2l "a.ts", s2l "export const export const Foo = 1;"⟩]

/-- A one-file tree with an aliased re-export list. -/
def aliasFs : List SrcFile := [⟨s2l "src", s2l "a.ts", s2l "export { Bar as Baz }"⟩]

/-- A one-file tree with two re-export groups. -/
def twoGroupFs : List SrcFile :=
  [⟨s2l "src", s2l "a.ts", s2l "export { Bar as Baz } export { Qux }"⟩]

/-- A one-file tree that does not mention `Foo` at all. -/
def noFooFs : List SrcFile := [⟨s2l "src", s2l "a.ts", s2l "export const Bar = 1;"⟩]

/-- A one-file tree in which the pair `(src/a.ts, Foo)` is captured twice,
once by pattern 1 and once by pattern 3. -/
def dupFs : List SrcFile :=
  [⟨s2l "src", s2l "a.ts", s2l "export const Foo = 1; export { Foo }"⟩]

/-- A second, non-test file referencing `Foo`, used to extend trees. -/
def gFile : SrcFile := ⟨s2l "src", s2l "b.ts", s2l "const x = Foo;"⟩

/-! ### Character facts -/

theorem pySpace_not_word {c : Char} (h : isPySpace c = true) : isWordChar c = false := by
  unfold isPySpace at h
  simp only [Bool.or_eq_true, decide_eq_true_eq] at h
  rcases h with ((((h | h) | h) | h) | h) | h <;> subst h <;> decide

theorem ne_nl_of_not_pySpace {c : Char} (h : isPySpace c = false) : ¬(c = '\n') := by
  intro hc; subst hc; exact absurd h (by decide)

/-! ### Specifications of the pattern-matcher building blocks -/

theorem dropLit_eq : ∀ lit s r, dropLit lit s = some r → s = lit ++ r := by
  intro lit
  induction lit with
  | nil => intro s r h; simpa [dropLit] using h
  | cons c cs ih =>
    intro s r h
    cases s with
    | nil => simp [dropLit] at h
    | cons x xs =>
      simp only [dropLit] at h
      split at h
      · next hc => subst hc; simpa using ih xs r h
      · exact absurd h (by simp)

theorem dropLit_self : ∀ w v : List Char, dropLit w (w ++ v) = some v := by
  intro w
  induction w with
  | nil => intro v; simp [dropLit]
  | cons c cs ih => intro v; simp [dropLit, ih]

theorem dropWhile_not_head (p : Char → Bool) :
    ∀ (l : List Char) (c : Char) (t : List Char), l.dropWhile p = c :: t → p c = false := by
  intro l
  induction l with
  | nil => intro c t h; simp [List.dropWhile] at h
  | cons x xs ih =>
    intro c t h
    rw [List.dropWhile_cons] at h
    split at h
    · exact ih c t h
    · next hx => cases h; simpa using hx

theorem boundaryAfter_dropWhile (l : List Char) :
    boundaryAfter (l.dropWhile isWordChar) = true := by
  cases hd : l.dropWhile isWordChar with
  | nil => rfl
  | cons c t =>
    have := dropWhile_not_head isWordChar l c t hd
    simp [boundaryAfter, this]

theorem dropWs1_eq : ∀ s r, dropWs1 s = some r →
    ∃ g c, s = g ++ c :: r ∧ isPySpace c = true := by
  intro s r h
  cases s with
  | nil => simp [dropWs1] at h
  | cons c rest =>
    simp only [dropWs1] at h
    split at h
    · next hc =>
      cases h
      rcases List.eq_nil_or_concat (rest.takeWhile isPySpace) with he | ⟨ys, b, hb⟩
      · refine ⟨[], c, ?_, hc⟩
        have := List.takeWhile_append_dropWhile isPySpace rest
        rw [he] at this
        simpa using congrArg (c :: ·) this.symm
      · have hsplit := List.takeWhile_append_dropWhile isPySpace rest
        have hbmem : b ∈ rest.takeWhile isPySpace := by
          rw [hb]; simp [List.concat_eq_append]
        have hbs : isPySpace b = true := List.mem_takeWhile_imp hbmem
        refine ⟨c :: ys, b, ?_, hbs⟩
        rw [hb, List.concat_eq_append] at hsplit
        calc c :: rest = c :: ((ys ++ [b]) ++ rest.dropWhile isPySpace) := by rw [hsplit]
          _ = (c :: ys) ++ b :: rest.dropWhile isPySpace := by simp
    · exact absurd h (by simp)

theorem takeWord_eq : ∀ s w r, takeWord s = some (w, r) →
    s = w ++ r ∧ w ≠ [] ∧ w.all isWordChar = true ∧ boundaryAfter r = true := by
  intro s w r h
  cases s with
  | nil => simp [takeWord] at h
  | cons c rest =>
    simp only [takeWord] at h
    split at h
    · next hc =>
      cases h
      refine ⟨?_, by simp, ?_, boundaryAfter_dropWhile rest⟩
      · have := List.takeWhile_append_dropWhile isWordChar rest
        simp [this]
      · rw [List.all_eq_true]
        intro x hx
        rcases List.mem_cons.mp hx with hx | hx
        · subst hx; exact hc
        · exact List.mem_takeWhile_imp hx
    · exact absurd h (by simp)

theorem matchAlts_eq : ∀ as s r, matchAlts as s = some r → ∃ a ∈ as, s = a ++ r := by
  intro as
  induction as with
  | nil => intro s r h; simp [matchAlts] at h
  | cons a rest ih =>
    intro s r h
    simp only [matchAlts] at h
    cases hd : dropLit a s with
    | some r' =>
      rw [hd] at h; cases h
      exact ⟨a, by simp, dropLit_eq a s r hd⟩
    | none =>
      rw [hd] at h
      rcases ih s r h with ⟨a', ha', hs⟩
      exact ⟨a', by simp [ha'], hs⟩

theorem findCloseBrace_suffix : ∀ s r, findCloseBrace s = some r → r <:+ s := by
  intro s
  induction s with
  | nil => intro r h; simp [findCloseBrace] at h
  | cons c rest ih =>
    intro r h
    simp only [findCloseBrace] at h
    split at h
    · cases h; exact List.suffix_cons c rest
    · exact (ih r h).trans (List.suffix_cons c rest)

theorem scanBrace_eq : ∀ t w r, scanBrace t = some (w, r) →
    ∃ u v, t = u ++ (w ++ v) ∧ (∀ x ∈ u, isWordChar x = false) ∧ w ≠ [] ∧
      w.all isWordChar = true ∧ boundaryAfter v = true ∧ r <:+ v := by
  intro t
  induction t with
  | nil => intro w r h; simp [scanBrace] at h
  | cons c rest ih =>
    intro w r h
    simp only [scanBrace] at h
    split at h
    · exact absurd h (by simp)
    · split at h
      · next hword =>
        cases hfc : findCloseBrace (rest.dropWhile isWordChar) with
        | some r' =>
          rw [hfc] at h; cases h
          refine ⟨[], rest.dropWhile isWordChar, ?_, by simp, by simp, ?_,
            boundaryAfter_dropWhile rest, findCloseBrace_suffix _ _ hfc⟩
          · have := List.takeWhile_append_dropWhile isWordChar rest
            simp [this]
          · rw [List.all_eq_true]
            intro x hx
            rcases List.mem_cons.mp hx with hx | hx
            · subst hx; exact hword
            · exact List.mem_takeWhile_imp hx
        | none => rw [hfc] at h; exact absurd h (by simp)
      · next hword =>
        rcases ih w r h with ⟨u, v, ht, hu, hw, hall, hba, hr⟩
        refine ⟨c :: u, v, by simp [ht], ?_, hw, hall, hba, hr⟩
        intro x hx
        rcases List.mem_cons.mp hx with hx | hx
        · subst hx; simpa using hword
        · exact hu x hx

/-! ### Soundness of the three pattern matchers -/

theorem matchP1At_sound : ∀ s w r, matchP1At s = some (w, r) →
    SoundCapture s w ∧ r <:+ s := by
  intro s w r h
  simp only [matchP1At, Option.bind_eq_some] at h
  obtain ⟨s1, h1, s2, h2, s3, h3, s4, h4, h5⟩ := h
  have e1 := dropLit_eq _ _ _ h1
  obtain ⟨g1, c1, e2, -⟩ := dropWs1_eq _ _ h2
  obtain ⟨kw, -, e3⟩ := matchAlts_eq _ _ _ h3
  obtain ⟨g2, c2, e4, hc2⟩ := dropWs1_eq _ _ h4
  obtain ⟨e5, hw, hall, hba⟩ := takeWord_eq _ _ _ h5
  subst e5; subst e4; subst e3; subst e2; subst e1
  constructor
  · exact ⟨hw, hall, s2l "export" ++ g1 ++ c1 :: (kw ++ g2), c2, r, by simp,
      pySpace_not_word hc2, hba⟩
  · exact ⟨s2l "export" ++ g1 ++ c1 :: (kw ++ g2) ++ [c2] ++ w, by simp⟩

theorem matchP2At_sound : ∀ s w r, matchP2At s = some (w, r) →
    SoundCapture s w ∧ r <:+ s := by
  intro s w r h
  simp only [matchP2At, Option.bind_eq_some] at h
  obtain ⟨s1, h1, s2, h2, s3, h3, s4, h4, h5⟩ := h
  have e1 := dropLit_eq _ _ _ h1
  obtain ⟨g1, c1, e2, -⟩ := dropWs1_eq _ _ h2
  have e3 := dropLit_eq _ _ _ h3
  obtain ⟨g2, c2, e4, hc2⟩ := dropWs1_eq _ _ h4
  obtain ⟨e5, hw, hall, hba⟩ := takeWord_eq _ _ _ h5
  subst e5; subst e4; subst e3; subst e2; subst e1
  constructor
  · exact ⟨hw, hall, s2l "export" ++ g1 ++ c1 :: (s2l "default" ++ g2), c2, r, by simp,
      pySpace_not_word hc2, hba⟩
  · exact ⟨s2l "export" ++ g1 ++ c1 :: (s2l "default" ++ g2) ++ [c2] ++ w, by simp⟩

theorem matchP3At_sound : ∀ s w r, matchP3At s = some (w, r) →
    SoundCapture s w ∧ r <:+ s := by
  intro s w r h
  simp only [matchP3At, Option.bind_eq_some] at h
  obtain ⟨s1, h1, s2, h2, s3, h3, h4⟩ := h
  have e1 := dropLit_eq _ _ _ h1
  obtain ⟨g1, c1, e2, -⟩ := dropWs1_eq _ _ h2
  have e3 := dropLit_eq _ _ _ h3
  obtain ⟨u, v, e4, hu, hw, hall, hba, hr⟩ := scanBrace_eq _ _ _ h4
  subst e4; subst e3; subst e2; subst e1
  have hrs : r <:+ s2l "export" ++ (g1 ++ c1 :: (['\x7b'] ++ (u ++ (w ++ v)))) := by
    rcases hr with ⟨t, ht⟩
    exact ⟨s2l "export" ++ g1 ++ c1 :: '\x7b' :: u ++ w ++ t, by simp [← ht]⟩
  refine ⟨⟨hw, hall, ?_⟩, hrs⟩
  rcases List.eq_nil_or_concat u with hu0 | ⟨ys, b, hb⟩
  · subst hu0
    exact ⟨s2l "export" ++ g1 ++ [c1], '\x7b', v, by simp, by decide, hba⟩
  · subst hb
    refine ⟨s2l "export" ++ g1 ++ c1 :: '\x7b' :: ys, b, v, by simp, ?_, hba⟩
    exact hu b (by simp [List.concat_eq_append])

/-! ### From a sound capture to whole-word containment -/

theorem hwAux_here (w v : List Char) (c : Char) (hc : isWordChar c = false)
    (hw : w ≠ []) (hv : boundaryAfter v = true) :
    hwAux w (some c) (w ++ v) = true := by
  rcases List.exists_cons_of_ne_nil hw with ⟨w0, w', hw'⟩
  subst hw'
  have hdl := dropLit_self (w0 :: w') v
  simp only [List.cons_append] at hdl ⊢
  simp only [hwAux]
  rw [hdl]
  simp [boundaryBefore, hc, hv]

theorem hwAux_embed (w v : List Char) (c : Char) (hc : isWordChar c = false)
    (hw : w ≠ []) (hv : boundaryAfter v = true) :
    ∀ (a : List Char) (prev : Option Char), hwAux w prev (a ++ c :: (w ++ v)) = true := by
  intro a
  induction a with
  | nil =>
    intro prev
    simp only [List.nil_append, hwAux]
    rw [Bool.or_eq_true]
    exact Or.inr (hwAux_here w v c hc hw hv)
  | cons x a' ih =>
    intro prev
    simp only [List.cons_append, hwAux]
    rw [Bool.or_eq_true]
    exact Or.inr (ih (some x))

theorem hasWholeWord_of_soundCapture {s w content : List Char}
    (hs : SoundCapture s w) (hsub : s <:+ content) :
    hasWholeWord w content = true := by
  obtain ⟨hw, -, u, c, v, he, hc, hba⟩ := hs
  obtain ⟨pre, hpre⟩ := hsub
  have : content = (pre ++ u) ++ c :: (w ++ v) := by rw [← hpre, he]; simp
  rw [hasWholeWord, this]
  exact hwAux_embed w v c hc hw hba (pre ++ u) none

/-! ### Soundness of the finditer scanners and of `get_exports` -/

theorem finditerFuel_sound
    (matchAt : List Char → Option (List Char × List Char))
    (hm : ∀ s w r, matchAt s = some (w, r) → SoundCapture s w ∧ r <:+ s) :
    ∀ (fuel : Nat) (s content : List Char), s <:+ content →
      ∀ w ∈ finditerFuel matchAt fuel s,
        w ≠ [] ∧ w.all isWordChar = true ∧ hasWholeWord w content = true := by
  intro fuel
  induction fuel with
  | zero => intro s content _ w hwmem; simp [finditerFuel] at hwmem
  | succ fuel ih =>
    intro s content hsub w hwmem
    cases s with
    | nil => simp [finditerFuel] at hwmem
    | cons c rest =>
      simp only [finditerFuel] at hwmem
      cases hma : matchAt (c :: rest) with
      | some p =>
        obtain ⟨w', r⟩ := p
        rw [hma] at hwmem
        obtain ⟨hsc, hr⟩ := hm _ _ _ hma
        rcases List.mem_cons.mp hwmem with hwe | hwmem'
        · subst hwe
          exact ⟨hsc.1, hsc.2.1, hasWholeWord_of_soundCapture hsc hsub⟩
        · exact ih r content (hr.trans hsub) w hwmem'
      | none =>
        rw [hma] at hwmem
        exact ih rest content ((List.suffix_cons c rest).trans hsub) w hwmem

theorem fileCaptures_sound {content w : List Char} (h : w ∈ fileCaptures content) :
    w ≠ [] ∧ w.all isWordChar = true ∧ hasWholeWord w content = true := by
  rcases List.mem_append.mp h with h12 | h3
  · rcases List.mem_append.mp h12 with h1 | h2
    · exact finditerFuel_sound matchP1At matchP1At_sound _ content content
        (List.suffix_refl content) w h1
    · exact finditerFuel_sound matchP2At matchP2At_sound _ content content
        (List.suffix_refl content) w h2
  · exact finditerFuel_sound matchP3At matchP3At_sound _ content content
      (List.suffix_refl content) w h3

/-! ### Membership in `get_exports` -/

theorem mem_get_exports {fs : List SrcFile} {p n : List Char} :
    (p, n) ∈ get_exports fs ↔
      ∃ f ∈ fs, eligible f.base = true ∧ p = f.fpath ∧
        n ∈ fileCaptures f.content ∧ n ≠ [] := by
  induction fs with
  | nil => simp [get_exports]
  | cons f rest ih =>
    simp only [get_exports, List.mem_append]
    constructor
    · rintro (hin | hin)
      · split at hin
        · next helig =>
          rcases List.mem_map.mp hin with ⟨n', hn', he⟩
          rcases List.mem_filter.mp hn' with ⟨hncap, hne⟩
          obtain ⟨hp, hn⟩ := Prod.mk.injEq .. ▸ he
          subst hp; subst hn
          exact ⟨f, by simp, helig, rfl, hncap, by simpa using hne⟩
        · simp at hin
      · rcases ih.mp hin with ⟨f', hf', h1, h2, h3, h4⟩
        exact ⟨f', by simp [hf'], h1, h2, h3, h4⟩
    · rintro ⟨f', hf', helig, hp, hcap, hne⟩
      rcases List.mem_cons.mp hf' with he | hf'
      · subst he
        left
        rw [if_pos helig]
        exact List.mem_map.mpr ⟨n, List.mem_filter.mpr ⟨hcap, by simpa using hne⟩,
          by rw [hp]⟩
      · exact Or.inr (ih.mpr ⟨f', hf', helig, hp, hcap, hne⟩)

/-! ### Path-suffix transfer from file name to joined path -/

theorem suffix_of_suffix_length_le {l1 l2 l3 : List Char}
    (h1 : l1 <:+ l3) (h2 : l2 <:+ l3) (hl : l1.length ≤ l2.length) : l1 <:+ l2 := by
  rw [← List.reverse_prefix] at h1 h2 ⊢
  exact List.prefix_of_prefix_length_le h1 h2 (by simpa using hl)

theorem base_suffix_fpath (f : SrcFile) : f.base <:+ f.fpath :=
  (List.suffix_cons '/' f.base).trans (List.suffix_append f.dir ('/' :: f.base))

theorem suffix_join_cases {dir base suf : List Char}
    (h : suf <:+ dir ++ '/' :: base) : suf <:+ base ∨ '/' ∈ suf := by
  by_cases hl : suf.length ≤ base.length
  · exact Or.inl (suffix_of_suffix_length_le h
      ((List.suffix_cons '/' base).trans (List.suffix_append dir ('/' :: base))) hl)
  · have hb : '/' :: base <:+ suf := by
      refine suffix_of_suffix_length_le (List.suffix_append dir ('/' :: base)) h ?_
      simp only [List.length_cons]
      omega
    exact Or.inr (hb.subset (by simp))

theorem eligible_unfold {base : List Char} (he : eligible base = true) :
    ((s2l ".ts") <:+ base ∨ (s2l ".tsx") <:+ base) ∧
      ¬((s2l ".test.ts") <:+ base) ∧ ¬((s2l ".test.tsx") <:+ base) := by
  rw [eligible] at he
  simp only [Bool.and_eq_true, Bool.or_eq_true, Bool.not_eq_true',
    List.isSuffixOf_iff_suffix, Bool.not_eq_true] at he
  refine ⟨he.1.1, ?_, ?_⟩
  · rw [← List.isSuffixOf_iff_suffix]; simp [he.1.2]
  · rw [← List.isSuffixOf_iff_suffix]; simp [he.2]

theorem testPath_fpath_of_eligible {f : SrcFile} (he : eligible f.base = true) :
    testPath f.fpath = false := by
  obtain ⟨-, hts, htsx⟩ := eligible_unfold he
  rw [testPath, Bool.or_eq_false_iff]
  constructor
  · rw [← Bool.not_eq_true, List.isSuffixOf_iff_suffix]
    intro hsuf
    rcases suffix_join_cases (by simpa [SrcFile.fpath] using hsuf) with hc | hc
    · exact hts hc
    · exact absurd hc (by decide)
  · rw [← Bool.not_eq_true, List.isSuffixOf_iff_suffix]
    intro hsuf
    rcases suffix_join_cases (by simpa [SrcFile.fpath] using hsuf) with hc | hc
    · exact htsx hc
    · exact absurd hc (by decide)

/-! ### The grep output round-trip -/

theorem splitNl_no_nl {p : List Char} (h : ∀ c ∈ p, ¬(c = '\n')) : splitNl p = [p] := by
  induction p with
  | nil => rfl
  | cons c rest ih =>
    rw [splitNl, if_neg (h c (by simp)), ih (fun c' hc' => h c' (by simp [hc']))]

theorem splitNl_append {p : List Char} (h : ∀ c ∈ p, ¬(c = '\n')) (t : List Char) :
    splitNl (p ++ '\n' :: t) = p :: splitNl t := by
  induction p with
  | nil => simp [splitNl]
  | cons c rest ih =>
    rw [List.cons_append, splitNl, if_neg (h c (by simp)),
      ih (fun c' hc' => h c' (by simp [hc']))]

theorem splitNl_joinNl {ps : List (List Char)} (hne : ps ≠ [])
    (h : ∀ p ∈ ps, ∀ c ∈ p, ¬(c = '\n')) : splitNl (joinNl ps) = ps := by
  induction ps with
  | nil => exact absurd rfl hne
  | cons p rest ih =>
    cases rest with
    | nil => exact splitNl_no_nl (h p (by simp))
    | cons q rest' =>
      show splitNl (p ++ '\n' :: joinNl (q :: rest')) = _
      rw [splitNl_append (h p (by simp)),
        ih (by simp) (fun p' hp' => h p' (by simp [hp']))]

theorem joinNl_ne_nil {ps : List (List Char)} (hne : ps ≠ [])
    (hp : ∀ p ∈ ps, p ≠ []) : joinNl ps ≠ [] := by
  cases ps with
  | nil => exact absurd rfl hne
  | cons p rest =>
    cases rest with
    | nil => exact hp p (by simp)
    | cons q rest' =>
      show p ++ '\n' :: joinNl (q :: rest') ≠ []
      simp

theorem dropWhile_append_of_self {p : Char → Bool} {A B : List Char}
    (hA : A ≠ []) (h : A.dropWhile p = A) : (A ++ B).dropWhile p = A ++ B := by
  cases A with
  | nil => exact absurd rfl hA
  | cons a A' =>
    rw [List.dropWhile_cons] at h
    by_cases hpa : p a = true
    · rw [if_pos hpa] at h
      have h1 := congrArg List.length h
      have h2 := (@List.dropWhile_suffix _ A' p).length_le
      simp only [List.length_cons] at h1
      omega
    · rw [List.cons_append, List.dropWhile_cons, if_neg hpa]

theorem dropWhile_joinNl_left {ps : List (List Char)} (hne : ps ≠ [])
    (hp : ∀ p ∈ ps, p ≠ []) (h : ∀ p ∈ ps, ∀ c ∈ p, isPySpace c = false) :
    (joinNl ps).dropWhile isPySpace = joinNl ps := by
  cases ps with
  | nil => exact absurd rfl hne
  | cons p rest =>
    rcases List.exists_cons_of_ne_nil (hp p (by simp)) with ⟨c, p', hp'⟩
    have hc : isPySpace c = false := h p (by simp) c (by simp [hp'])
    subst hp'
    cases rest with
    | nil =>
      show ((c :: p').dropWhile isPySpace) = c :: p'
      rw [List.dropWhile_cons, if_neg (by simp [hc])]
    | cons q rest' =>
      show ((c :: p') ++ '\n' :: joinNl (q :: rest')).dropWhile isPySpace = _
      rw [List.cons_append, List.dropWhile_cons, if_neg (by simp [hc])]
      simp [joinNl]

theorem dropWhile_reverse_joinNl {ps : List (List Char)} (hne : ps ≠ [])
    (hp : ∀ p ∈ ps, p ≠ []) (h : ∀ p ∈ ps, ∀ c ∈ p, isPySpace c = false) :
    (joinNl ps).reverse.dropWhile isPySpace = (joinNl ps).reverse := by
  induction ps with
  | nil => exact absurd rfl hne
  | cons p rest ih =>
    cases rest with
    | nil =>
      show p.reverse.dropWhile isPySpace = p.reverse
      rcases List.eq_nil_or_concat p with h0 | ⟨ys, b, hb⟩
      · exact absurd h0 (hp p (by simp))
      · have hb' : isPySpace b = false := by
          refine h p (by simp) b ?_
          rw [hb, List.concat_eq_append]
          simp
        rw [hb, List.concat_eq_append, List.reverse_append]
        simp only [List.reverse_cons, List.reverse_nil, List.nil_append,
          List.singleton_append, List.dropWhile_cons]
        rw [if_neg (by simp [hb'])]
    | cons q rest' =>
      show (p ++ '\n' :: joinNl (q :: rest')).reverse.dropWhile isPySpace = _
      have hJne : joinNl (q :: rest') ≠ [] :=
        joinNl_ne_nil (by simp) (fun p' hp' => hp p' (by simp [hp']))
      have hJ := ih (by simp) (fun p' hp' => hp p' (by simp [hp']))
        (fun p' hp' => h p' (by simp [hp']))
      rw [List.reverse_append, List.reverse_cons]
      rw [List.append_assoc]
      rw [dropWhile_append_of_self (by simpa using hJne) hJ]
      have hJoin : joinNl (p :: q :: rest') = p ++ '\n' :: joinNl (q :: rest') := rfl
      rw [hJoin, List.reverse_append, List.reverse_cons, List.append_assoc]

theorem stripWs_grep_output {ps : List (List Char)} (hne : ps ≠ [])
    (hp : ∀ p ∈ ps, p ≠ []) (h : ∀ p ∈ ps, ∀ c ∈ p, isPySpace c = false) :
    stripWs (joinNl ps ++ ['\n']) = joinNl ps := by
  rw [stripWs]
  rw [dropWhile_append_of_self (joinNl_ne_nil hne hp) (dropWhile_joinNl_left hne hp h)]
  rw [List.reverse_append]
  simp only [List.reverse_cons, List.reverse_nil, List.nil_append, List.singleton_append]
  rw [List.dropWhile_cons, if_pos (by decide)]
  rw [dropWhile_reverse_joinNl hne hp h, List.reverse_reverse]

theorem split_strip_join {ps : List (List Char)} (hne : ps ≠ [])
    (hp : ∀ p ∈ ps, p ≠ []) (h : ∀ p ∈ ps, ∀ c ∈ p, isPySpace c = false) :
    splitNl (stripWs (joinNl ps ++ ['\n'])) = ps := by
  rw [stripWs_grep_output hne hp h,
    splitNl_joinNl hne (fun p hp' c hc => ne_nl_of_not_pySpace (h p hp' c hc))]

/-! ### Characterization of the usage check on a real grep run -/

theorem fpath_ne_nil (f : SrcFile) : f.fpath ≠ [] := by
  simp [SrcFile.fpath]

theorem mem_grepFiles {n q : List Char} {fs : List SrcFile} :
    q ∈ grepFiles n fs ↔
      ∃ f ∈ fs, hasWholeWord n f.content = true ∧ q = f.fpath := by
  simp only [grepFiles, List.mem_map, List.mem_filter]
  constructor
  · rintro ⟨f, ⟨hf, hww⟩, he⟩
    exact ⟨f, hf, hww, he.symm⟩
  · rintro ⟨f, hf, hww, he⟩
    exact ⟨f, ⟨hf, hww⟩, he.symm⟩

theorem is_used_grep_eq (n d : List Char) (fs : List SrcFile) (hw : wfPaths fs) :
    is_used n d (grepResult n fs) = Except.ok (decide (0 <
      (((grepFiles n fs).filter (fun q => q != d)).filter
        (fun q => !testPath q)).length)) := by
  rw [grepResult]
  cases hms : grepFiles n fs with
  | nil => simp [is_used]
  | cons m ms' =>
    have hps : ∀ p ∈ m :: ms', p ≠ [] := by
      intro p hp
      rcases mem_grepFiles.mp (hms ▸ hp) with ⟨f, -, -, he⟩
      rw [he]; exact fpath_ne_nil f
    have hsp : ∀ p ∈ m :: ms', ∀ c ∈ p, isPySpace c = false := by
      intro p hp c hc
      rcases mem_grepFiles.mp (hms ▸ hp) with ⟨f, hf, -, he⟩
      exact hw f hf c (he ▸ hc)
    simp only [is_used]
    rw [split_strip_join (by simp) hps hsp]

theorem is_used_grep_ok (n d : List Char) (fs : List SrcFile) :
    is_used n d (grepResult n fs) = Except.ok (usedB n d fs) := by
  rw [usedB]
  cases h : is_used n d (grepResult n fs) with
  | ok b => rfl
  | error e =>
    exfalso
    rw [grepResult] at h
    cases hg : grepFiles n fs <;> rw [hg] at h <;> simp [is_used] at h

theorem usedB_eq_decide {n d : List Char} {fs : List SrcFile} (hw : wfPaths fs) :
    usedB n d fs = decide (0 <
      (((grepFiles n fs).filter (fun q => q != d)).filter
        (fun q => !testPath q)).length) := by
  have h1 := is_used_grep_ok n d fs
  have h2 := is_used_grep_eq n d fs hw
  rw [h1] at h2
  exact Except.ok.inj h2

theorem usedB_iff {n d : List Char} {fs : List SrcFile} (hw : wfPaths fs) :
    usedB n d fs = true ↔
      ∃ f ∈ fs, hasWholeWord n f.content = true ∧ f.fpath ≠ d ∧
        testPath f.fpath = false := by
  rw [usedB_eq_decide hw]
  simp only [decide_eq_true_eq]
  rw [List.length_pos_iff_exists_mem]
  constructor
  · rintro ⟨q, hq⟩
    rcases List.mem_filter.mp hq with ⟨hq1, hq2⟩
    rcases List.mem_filter.mp hq1 with ⟨hq0, hq3⟩
    rcases mem_grepFiles.mp hq0 with ⟨f, hf, hww, he⟩
    subst he
    exact ⟨f, hf, hww, by simpa using hq3, by simpa using hq2⟩
  · rintro ⟨f, hf, hww, hne, htp⟩
    refine ⟨f.fpath, List.mem_filter.mpr ⟨List.mem_filter.mpr
      ⟨mem_grepFiles.mpr ⟨f, hf, hww, rfl⟩, by simpa using hne⟩, by simp [htp]⟩⟩

/-! ### The checking loop of `main` on a real grep run -/

theorem runChecks_grep (fs : List SrcFile) : ∀ exps : List ExportRecord,
    runChecks (grepOracle fs) exps =
      Except.ok (exps.filter
        (fun r => !(decide (r.2 ∈ kwNames)) && !(usedB r.2 r.1 fs))) := by
  intro exps
  induction exps with
  | nil => simp [runChecks]
  | cons r rest ih =>
    obtain ⟨p, n⟩ := r
    rw [runChecks]
    by_cases hk : n ∈ kwNames
    · rw [if_pos hk, ih]
      simp [List.filter_cons, hk]
    · rw [if_neg hk]
      have horacle : grepOracle fs n p = grepResult n fs := rfl
      rw [horacle, is_used_grep_ok n p fs, ih]
      cases husd : usedB n p fs <;> simp [List.filter_cons, hk, husd]

theorem mainReport_eq (fs : List SrcFile) : mainReport fs = unusedOf fs := by
  rw [mainReport, mainUnused, runChecks_grep fs (get_exports fs), unusedOf]

/-! ### Claims -/

/-- C3, counterexample: the claim says every error of the search invocation,
including subprocess failures other than a non-zero exit status, is treated
as "no usages found" (so `is_used` returns false).  But `is_used` only
catches `subprocess.CalledProcessError`: at the concrete input below, a
subprocess failure raising a different exception propagates out of `is_used`
instead of returning false. -/
theorem c3_counterexample :
    is_used (s2l "Foo") (s2l "src/a.ts") SearchResult.otherFailure =
      Except.error () := rfl

/-- C3, amended: every search failure signaled through a non-zero exit status
(`CalledProcessError`, which covers grep's "no matches" exit) is treated as
"no usages found" and makes `is_used` return false; a subprocess failure
raising any other exception propagates out of `is_used` uncaught. -/
theorem c3_amended_holds (n d : List Char) :
    is_used n d SearchResult.calledProcessError = Except.ok false ∧
    is_used n d SearchResult.otherFailure = Except.error () :=
  ⟨rfl, rfl⟩

/-- C4, counterexample: the claim says that when the whole-word search
reports no matches at all, the Usage Checker fails open and treats the
symbol as used.  On the tree below, `Foo` matches no file, the search
reports this through a non-zero exit status (`CalledProcessError`), and the
checker returns false — the symbol is treated as unused and flagged, not
treated as used. -/
theorem c4_counterexample :
    grepResult (s2l "Foo") noFooFs = SearchResult.calledProcessError ∧
    usedB (s2l "Foo") (s2l "src/a.ts") noFooFs = false := by
  exact ⟨rfl, rfl⟩

/-- C4, amended: when the whole-word search reports no matches at all
(signaled, as by grep, through a non-zero exit status), the Usage Checker
fails closed: the usage check returns false and the symbol is flagged as
unused. -/
theorem c4_amended_holds (n d : List Char) (fs : List SrcFile)
    (h : ∀ f ∈ fs, hasWholeWord n f.content = false) :
    usedB n d fs = false := by
  have hg : grepFiles n fs = [] := by
    rw [grepFiles]
    have hf : fs.filter (fun f => hasWholeWord n f.content) = [] := by
      rw [List.filter_eq_nil_iff]
      intro f hf
      simp [h f hf]
    rw [hf, List.map_nil]
  have h1 : grepResult n fs = SearchResult.calledProcessError := by
    unfold grepResult
    rw [hg]
  unfold usedB
  rw [h1]
  rfl

theorem c4_amended_witness : usedB (s2l "Foo") (s2l "src/a.ts") noFooFs = false :=
  c4_amended_holds (s2l "Foo") (s2l "src/a.ts") noFooFs (by decide)

/-- C5, counterexample: the claim says every bare identifier token inside the
braces of an `export { ... }` occurrence is captured, and in particular that
`export { Bar as Baz }` can produce both `Bar` and `Baz`.  On the concrete
tree below, whose single file is exactly that text, only `Bar` is captured:
non-overlapping `finditer` matching resumes after the closing brace, so the
match of pattern 3 captures only the first identifier of the brace group and
`Baz` yields no record. -/
theorem c5_counterexample :
    get_exports aliasFs = [(s2l "src/a.ts", s2l "Bar")] ∧
    (s2l "src/a.ts", s2l "Baz") ∉ get_exports aliasFs := by
  refine ⟨rfl, by decide⟩

/-- C5, amended: of the bare identifier tokens inside the braces of an
`export { ... }` occurrence, only the first is captured; `export { Bar as
Baz }` produces only the record `Bar` (neither `as`, nor `Baz`), while each
separate `export { ... }` occurrence contributes its own first identifier
(`export { Bar as Baz } export { Qux }` produces `Bar` and `Qux`). -/
theorem c5_amended_holds :
    get_exports aliasFs = [(s2l "src/a.ts", s2l "Bar")] ∧
    get_exports twoGroupFs =
      [(s2l "src/a.ts", s2l "Bar"), (s2l "src/a.ts", s2l "Qux")] :=
  ⟨rfl, rfl⟩

/-- C6, counterexample: the claim says the program terminates normally for
every outcome of the external search facility.  On the concrete tree below
(one export), a run whose search invocation fails with an exception other
than `CalledProcessError` propagates that exception out of `main`: the run
crashes instead of terminating normally. -/
theorem c6_counterexample :
    mainUnused exFs (fun _ _ => SearchResult.otherFailure) = Except.error () :=
  rfl

/-- C6, amended: for every input tree, if every search invocation either
succeeds or fails with a non-zero exit status (`CalledProcessError`), the
program terminates normally, with the worst-case effect of such an error
being an over-inclusive "unused" report; but a subprocess failure raising
any other exception propagates to the user as a crash. -/
theorem c6_amended_holds (fs : List SrcFile)
    (oracle : List Char → List Char → SearchResult)
    (h : ∀ n d, oracle n d ≠ SearchResult.otherFailure) :
    ∃ l, mainUnused fs oracle = Except.ok l := by
  rw [mainUnused]
  induction get_exports fs with
  | nil => exact ⟨[], rfl⟩
  | cons r rest ih =>
    obtain ⟨p, n⟩ := r
    obtain ⟨l', hl'⟩ := ih
    rw [runChecks]
    by_cases hk : n ∈ kwNames
    · rw [if_pos hk]
      exact ⟨l', hl'⟩
    · rw [if_neg hk]
      have hok : ∃ b, is_used n p (oracle n p) = Except.ok b := by
        cases ho : oracle n p with
        | ok out => exact ⟨_, rfl⟩
        | calledProcessError => exact ⟨false, rfl⟩
        | otherFailure => exact absurd ho (h n p)
      obtain ⟨b, hb⟩ := hok
      rw [hb, hl']
      exact ⟨if b then l' else (p, n) :: l', rfl⟩

theorem c6_amended_witness :
    ∃ l, mainUnused exFs (fun _ _ => SearchResult.calledProcessError) =
      Except.ok l :=
  c6_amended_holds exFs (fun _ _ => SearchResult.calledProcessError)
    (fun _ _ h => SearchResult.noConfusion h)

/-- C10: if the search invocation succeeds with empty output, `is_used`
returns true — splitting the empty output yields a single empty-string path,
which is different from the (nonempty) defining-file path and does not end in
a test suffix, so it survives both exclusion filters and the symbol counts
as used. -/
theorem c10_empty_output_used (n d : List Char) (hd : d ≠ []) :
    splitNl (stripWs []) = [[]] ∧
    is_used n d (SearchResult.ok []) = Except.ok true := by
  refine ⟨rfl, ?_⟩
  have h1 : (([] : List Char) != d) = true := by
    simp only [bne_iff_ne, ne_eq]
    exact fun he => hd he.symm
  have h2 : testPath ([] : List Char) = false := rfl
  simp only [is_used]
  rw [show splitNl (stripWs []) = [[]] from rfl]
  simp [List.filter_cons, h1, h2]

theorem c10_witness :
    splitNl (stripWs []) = [[]] ∧
    is_used fooName (s2l "src/a.ts") (SearchResult.ok []) = Except.ok true :=
  c10_empty_output_used fooName (s2l "src/a.ts") (by decide)

/-- C2: on a real run, the Usage Checker classifies a symbol as "used" iff
at least one file remains after removing the defining file (path comparison)
and all files with a test suffix from the set the whole-word search matched;
in particular, a symbol whose only whole-word references outside its defining
file are in test files is classified as unused. -/
theorem c2_used_iff (n d : List Char) (fs : List SrcFile) (hw : wfPaths fs) :
    (usedB n d fs = true ↔
      0 < (((grepFiles n fs).filter (fun q => q != d)).filter
        (fun q => !testPath q)).length) ∧
    ((∀ f ∈ fs, hasWholeWord n f.content = true →
        f.fpath = d ∨ testPath f.fpath = true) → usedB n d fs = false) := by
  constructor
  · rw [usedB_eq_decide hw]
    simp
  · intro h
    cases hu : usedB n d fs with
    | false => rfl
    | true =>
      exfalso
      rcases (usedB_iff hw).mp hu with ⟨f, hf, hww, hne, htp⟩
      rcases h f hf hww with he | he
      · exact hne he
      · rw [htp] at he
        cases he

theorem c2_witness :
    (usedB fooName (s2l "src/a.ts") exFs = true ↔
      0 < (((grepFiles fooName exFs).filter (fun q => q != s2l "src/a.ts")).filter
        (fun q => !testPath q)).length) ∧
    ((∀ f ∈ exFs, hasWholeWord fooName f.content = true →
        f.fpath = s2l "src/a.ts" ∨ testPath f.fpath = true) →
      usedB fooName (s2l "src/a.ts") exFs = false) :=
  c2_used_iff fooName (s2l "src/a.ts") exFs (by decide)

/-- C7: a collected export whose symbol name is in the reserved set
{default, interface, type, const, function, class} is never reported: the
checking loop skips it before calling the usage check, so it appears neither
among the per-symbol "potentially unused" notices nor in the final summary
(both are printed from the accumulated `unused` list), for every tree and
every outcome of the search facility. -/
theorem c7_keyword_guard (fs : List SrcFile)
    (oracle : List Char → List Char → SearchResult) (l : List ExportRecord)
    (hrun : mainUnused fs oracle = Except.ok l)
    (p n : List Char) (hn : n ∈ kwNames) : (p, n) ∉ l := by
  rw [mainUnused] at hrun
  revert l hrun
  induction get_exports fs with
  | nil =>
    intro l hrun
    rw [runChecks] at hrun
    cases hrun
    simp
  | cons r rest ih =>
    intro l hrun
    obtain ⟨p', n'⟩ := r
    rw [runChecks] at hrun
    split at hrun
    · exact ih l hrun
    · next hn' =>
      cases hiu : is_used n' p' (oracle n' p') with
      | error e => rw [hiu] at hrun; cases hrun
      | ok b =>
        rw [hiu] at hrun
        cases hrc : runChecks oracle rest with
        | error e => rw [hrc] at hrun; cases hrun
        | ok l' =>
          rw [hrc] at hrun
          have hl := Except.ok.inj hrun
          have hnotmem := ih l' hrc
          cases b with
          | true =>
            have hl' : l' = l := by simpa using hl
            rw [← hl']
            exact hnotmem
          | false =>
            have hl' : (p', n') :: l' = l := by simpa using hl
            rw [← hl']
            simp only [List.mem_cons, not_or]
            refine ⟨?_, hnotmem⟩
            intro he
            obtain ⟨-, hne⟩ := Prod.mk.injEq .. ▸ he
            exact hn' (hne ▸ hn)

theorem c7_witness :
    (s2l "src/a.ts", s2l "const") ∉ ([(s2l "src/a.ts", s2l "Foo")] : List ExportRecord) :=
  c7_keyword_guard exFs (grepOracle exFs) [(s2l "src/a.ts", s2l "Foo")] rfl
    (s2l "src/a.ts") (s2l "const") (by decide)

/-- C8: on a real run the final summary is exactly the subsequence of the
collected export-record list (filesystem-traversal order, then pattern order
within each file) consisting of the non-keyword records whose usage check
returned false — no sorting and no deduplication, so the pair `(src/a.ts,
Foo)` of `dupFs`, captured once by pattern 1 and once by pattern 3, is
reported twice; and when the subsequence is empty the summary is the single
message "No unused exports found.". -/
theorem c8_summary (fs : List SrcFile) :
    mainUnused fs (grepOracle fs) = Except.ok (unusedOf fs) ∧
    (unusedOf fs).Sublist (get_exports fs) ∧
    mainReport dupFs = [(s2l "src/a.ts", s2l "Foo"), (s2l "src/a.ts", s2l "Foo")] ∧
    summaryLines [] = [s2l "No unused exports found."] ∧
    summaryLines (mainReport dupFs) =
      [s2l "src/a.ts: Foo", s2l "src/a.ts: Foo"] := by
  refine ⟨?_, ?_, rfl, rfl, rfl⟩
  · rw [mainUnused, runChecks_grep fs (get_exports fs), unusedOf]
  · rw [unusedOf]
    exact List.filter_sublist _

/-- C9: every record produced by the Export Collector has a nonempty symbol
name consisting only of ASCII letters, digits and underscores, and a file
path that ends in `.ts` or `.tsx` but neither in `.test.ts` nor in
`.test.tsx`. -/
theorem c9_record_invariant {fs : List SrcFile} {p n : List Char}
    (h : (p, n) ∈ get_exports fs) :
    n ≠ [] ∧ n.all isWordChar = true ∧
      ((s2l ".ts") <:+ p ∨ (s2l ".tsx") <:+ p) ∧
      ¬((s2l ".test.ts") <:+ p) ∧ ¬((s2l ".test.tsx") <:+ p) := by
  rcases mem_get_exports.mp h with ⟨f, hf, helig, hp, hcap, hne⟩
  subst hp
  obtain ⟨hn1, hn2, -⟩ := fileCaptures_sound hcap
  obtain ⟨hts, -, -⟩ := eligible_unfold helig
  have htp := testPath_fpath_of_eligible helig
  rw [testPath, Bool.or_eq_false_iff] at htp
  refine ⟨hn1, hn2, ?_, ?_, ?_⟩
  · rcases hts with hx | hx
    · exact Or.inl (hx.trans (base_suffix_fpath f))
    · exact Or.inr (hx.trans (base_suffix_fpath f))
  · rw [← List.isSuffixOf_iff_suffix]
    simp [htp.1]
  · rw [← List.isSuffixOf_iff_suffix]
    simp [htp.2]

theorem c9_witness :
    (s2l "Foo" : List Char) ≠ [] ∧ (s2l "Foo").all isWordChar = true ∧
      ((s2l ".ts") <:+ s2l "src/a.ts" ∨ (s2l ".tsx") <:+ s2l "src/a.ts") ∧
      ¬((s2l ".test.ts") <:+ s2l "src/a.ts") ∧
      ¬((s2l ".test.tsx") <:+ s2l "src/a.ts") :=
  c9_record_invariant ((by decide : (s2l "src/a.ts", s2l "Foo") ∈ get_exports exFs))

/-- C1, counterexample: the claim quantifies over every tree in which exactly
one eligible non-test file CONTAINS the text `export const Foo = 1;` and no
other file holds the whole-word token `Foo`, and asserts `Foo` is reported.
On the tree below, the single file's content is
`export const export const Foo = 1;` — which contains that text — yet the
run reports only the record `(src/a.ts, export)`: pattern 1 matches from the
first `export`, captures the token `export` as the symbol, and the
non-overlapping scan resumes after it, so `Foo` is never captured and never
reported. -/
theorem c1_counterexample :
    mainReport advFs = [(s2l "src/a.ts", s2l "export")] ∧
    (s2l "src/a.ts", s2l "Foo") ∉ mainReport advFs := by
  refine ⟨rfl, by decide⟩

/-- C1, amended: for every tree in which some eligible non-test file's
content is exactly `export const Foo = 1;` and the whole-word token `Foo`
appears in no other file, the tool reports `Foo` (for that file) as unused;
and extending such a tree with a second non-test file that holds the token
`Foo` at a fresh path makes the tool not report `Foo` at all. -/
theorem c1_amended_holds (fs : List SrcFile) (f : SrcFile)
    (hf : f ∈ fs) (hw : wfPaths fs)
    (helig : eligible f.base = true)
    (hc : f.content = s2l "export const Foo = 1;")
    (honly : ∀ f' ∈ fs, f' ≠ f → hasWholeWord (s2l "Foo") f'.content = false) :
    (f.fpath, s2l "Foo") ∈ mainReport fs ∧
    (∀ g : SrcFile, hasWholeWord (s2l "Foo") g.content = true →
      testPath g.fpath = false → g.fpath ∉ fs.map SrcFile.fpath →
      wfPaths (fs ++ [g]) →
      ∀ p, (p, s2l "Foo") ∉ mainReport (fs ++ [g])) := by
  constructor
  · rw [mainReport_eq, unusedOf, List.mem_filter]
    constructor
    · refine mem_get_exports.mpr ⟨f, hf, helig, rfl, ?_, by decide⟩
      rw [hc]
      decide
    · have hkw : (s2l "Foo") ∉ kwNames := by decide
      have husd : usedB (s2l "Foo") f.fpath fs = false := by
        cases hu : usedB (s2l "Foo") f.fpath fs with
        | false => rfl
        | true =>
          exfalso
          rcases (usedB_iff hw).mp hu with ⟨f', hf', hww, hne, -⟩
          have hne' : f' ≠ f := fun he => hne (by rw [he])
          rw [honly f' hf' hne'] at hww
          cases hww
      simp [hkw, husd]
  · intro g hgww hgtest hgfresh hw' p hmem
    rw [mainReport_eq, unusedOf] at hmem
    rcases List.mem_filter.mp hmem with ⟨hmemx, hcond⟩
    rcases mem_get_exports.mp hmemx with ⟨h0, h0mem, h0elig, hp, h0cap, -⟩
    have husd : usedB (s2l "Foo") p (fs ++ [g]) = false := by
      simp only [Bool.and_eq_true, Bool.not_eq_true'] at hcond
      exact hcond.2
    have h0ww : hasWholeWord (s2l "Foo") h0.content = true :=
      (fileCaptures_sound h0cap).2.2
    subst hp
    rcases List.mem_append.mp h0mem with h0fs | h0g
    · by_cases hef : h0 = f
      · have hused : usedB (s2l "Foo") h0.fpath (fs ++ [g]) = true := by
          apply (usedB_iff hw').mpr
          refine ⟨g, by simp, hgww, ?_, hgtest⟩
          intro he
          exact hgfresh (he ▸ List.mem_map_of_mem SrcFile.fpath h0fs)
        rw [hused] at husd
        cases husd
      · rw [honly h0 h0fs hef] at h0ww
        cases h0ww
    · have heg : h0 = g := by simpa using h0g
      subst heg
      have hused : usedB (s2l "Foo") h0.fpath (fs ++ [h0]) = true := by
        apply (usedB_iff hw').mpr
        refine ⟨f, by simp [hf], ?_, ?_, testPath_fpath_of_eligible helig⟩
        · rw [hc]
          decide
        · intro he
          exact hgfresh (he.symm ▸ List.mem_map_of_mem SrcFile.fpath hf)
      rw [hused] at husd
      cases husd

theorem c1_amended_witness :
    (s2l "src/a.ts", s2l "Foo") ∈ mainReport exFs ∧
    (s2l "src/a.ts", s2l "Foo") ∉ mainReport (exFs ++ [gFile]) := by
  have h := c1_amended_holds exFs ⟨s2l "src", s2l "a.ts", s2l "export const Foo = 1;"⟩
    (by decide) (by decide) (by decide) rfl (by decide)
  exact ⟨h.1, h.2 gFile (by decide) (by decide) (by decide) (by decide)
    (s2l "src/a.ts")⟩

end FindUnused
